import Mathlib

/-
Verification of the full-gradient saliency-map notebook
(sagemaker-debugger / model_specific_realtime_analysis / cnn_class_activation_maps).

Shallow embedding conventions:
  * numpy arrays are nested lists of rationals; machine floats are modelled by
    exact rationals, so algebraic identities are exact.
  * external library routines that are not code of this repository
    (scipy.ndimage.zoom, np.sqrt, np.exp) are abstract function parameters.
  * the smdebug trial store is a record of lookup functions returning
    Except values; the raised TensorUnavailableForStep exception is the
    error tensorUnavailableForStep, every other exception is otherError.
  * rational division by zero is total (q / 0 = 0); where the notebook would
    produce nan, the theorems instead expose the zero divisor itself.
-/

abbrev Vec1 := List ℚ
abbrev Mat := List (List ℚ)
abbrev T3 := List Mat
abbrev T4 := List T3

/-- np.min over the flattened values; 0 on an empty list (numpy would raise). -/
def npMin (l : List ℚ) : ℚ :=
  match l with
  | [] => 0
  | x :: xs => xs.foldl min x

/-- np.max over the flattened values; 0 on an empty list (numpy would raise). -/
def npMax (l : List ℚ) : ℚ :=
  match l with
  | [] => 0
  | x :: xs => xs.foldl max x

def map2 (f : ℚ → ℚ) (t : Mat) : Mat := t.map (fun r => r.map f)

def map3 (f : ℚ → ℚ) (t : T3) : T3 := t.map (fun m => m.map (fun r => r.map f))

def map4 (f : ℚ → ℚ) (t : T4) : T4 := t.map (map3 f)

def flat2 (t : Mat) : List ℚ := t.flatten

def flat3 (t : T3) : List ℚ := (t.map flat2).flatten

def flat4 (t : T4) : List ℚ := (t.map flat3).flatten

/-- Elementwise product of two 3D tensors (numpy multiply on equal shapes). -/
def mul3 (a b : T3) : T3 :=
  List.zipWith (fun x y => List.zipWith (fun r s => List.zipWith (fun p q => p * q) r s) x y) a b

/-- Elementwise product of two 4D tensors. -/
def mul4 (a b : T4) : T4 := List.zipWith mul3 a b

def abs3 (t : T3) : T3 := map3 (fun x => |x|) t

def abs4 (t : T4) : T4 := map4 (fun x => |x|) t

def matAdd (a b : Mat) : Mat :=
  List.zipWith (fun r s => List.zipWith (fun p q => p + q) r s) a b

def vecAdd (a b : Vec1) : Vec1 := List.zipWith (fun p q => p + q) a b

/-- np.sum(tensor, axis=0) for a 3D channels-first tensor: elementwise sum
of the channel matrices. -/
def sumAxis0 : T3 → Mat
  | [] => []
  | m :: ms => ms.foldl matAdd m

/-
The normalize helper of the notebook:
    def normalize(tensor):
        tensor = tensor - np.min(tensor)
        tensor = tensor / np.max(tensor)
        return tensor
It is applied to 2D, 3D and 4D arrays, so it is embedded once per arity
with the identical two steps; normalizeVals is its action on the flattened
value list, used to transfer facts between arities.
-/

def normShift2 (t : Mat) : Mat := map2 (fun x => x - npMin (flat2 t)) t

def normalizeDivisor2 (t : Mat) : ℚ := npMax (flat2 (normShift2 t))

def normalize2 (t : Mat) : Mat := map2 (fun x => x / normalizeDivisor2 t) (normShift2 t)

def normShift3 (t : T3) : T3 := map3 (fun x => x - npMin (flat3 t)) t

def normalizeDivisor3 (t : T3) : ℚ := npMax (flat3 (normShift3 t))

def normalize3 (t : T3) : T3 := map3 (fun x => x / normalizeDivisor3 t) (normShift3 t)

def normShift4 (t : T4) : T4 := map4 (fun x => x - npMin (flat4 t)) t

def normalizeDivisor4 (t : T4) : ℚ := npMax (flat4 (normShift4 t))

def normalize4 (t : T4) : T4 := map4 (fun x => x / normalizeDivisor4 t) (normShift4 t)

/-- The min-max normalization acting on a flat list of values. -/
def normalizeVals (l : List ℚ) : List ℚ :=
  (l.map (fun x => x - npMin l)).map
    (fun x => x / npMax (l.map (fun y => y - npMin l)))

/-- A list whose minimum is strictly below its maximum, i.e. a non-constant
(and in particular nonempty) value list. -/
def nonconst (l : List ℚ) : Prop := npMin l < npMax l

/-- All values lie in the closed unit interval. -/
def inUnit (l : List ℚ) : Prop := ∀ x ∈ l, 0 ≤ x ∧ x ≤ 1

/-
The saliency-map computation of the notebook, per batch item:

    image_gradient = trial.tensor("gradient/image").value(step)[item,:]
    image_gradient = np.sum(normalize(np.abs(image_gradient * image)), axis=0)
    saliency_map = image_gradient
    for gradient_name, bias_name, implicit_bias in zip(gradients, biases, implicit_biases):
        gradient = trial.tensor(gradient_name).value(step)[item:item+1,:,:,:]
        bias = trial.tensor(bias_name).value(step)
        bias = bias + implicit_bias
        bias = bias.reshape((1,bias.shape[0],1,1))
        bias = np.broadcast_to(bias, gradient.shape)
        bias_gradient = normalize(np.abs(bias * gradient))
        for channel in range(bias_gradient.shape[1]):
            interpolated = scipy.ndimage.zoom(bias_gradient[0,channel,:,:],
                                              image_size/bias_gradient.shape[2], order=1)
            saliency_map += interpolated
    saliency_map = normalize(saliency_map)
-/

/-- The base term of the accumulator, exactly as the notebook computes it:
the channel sum of the normalized absolute product. -/
def baseTerm (image_gradient image : T3) : Mat :=
  sumAxis0 (normalize3 (abs3 (mul3 image_gradient image)))

/-- The base term as claim C1 words it: normalize applied after the channel
sum. Written from the claim, to be compared against baseTerm. -/
def claimBase (image_gradient image : T3) : Mat :=
  normalize2 (sumAxis0 (abs3 (mul3 image_gradient image)))

/-- The base term as amended: normalize applied per tensor before the
channel sum. Written from the amended wording, compared against baseTerm. -/
def specBaseAmended (image_gradient image : T3) : Mat :=
  sumAxis0 (normalize3 (abs3 (mul3 image_gradient image)))

/-- bias.reshape((1,C,1,1)) broadcast to the shape of the 4D gradient:
entry (b,c,h,w) of the result is bias[c]. -/
def broadcast4 (bias : Vec1) (g : T4) : T4 :=
  g.map (fun t3 => List.zipWith (fun bc ch => ch.map (fun row => row.map (fun _ => bc))) bias t3)

/-- bias_gradient.shape[2], the spatial height of the 4D tensor. -/
def shape2of (t : T4) : ℕ := ((t.headD []).headD []).length

/-- One iteration of the per-layer loop of the notebook, acting on the
already fetched gradient, explicit bias and implicit bias. zoomF is the
abstract order-1 interpolation scipy.ndimage.zoom(slice, factor, order=1). -/
def layerStep (zoomF : ℚ → Mat → Mat) (imageSize : ℚ) (saliency_map : Mat)
    (gradient : T4) (bias0 implicit_bias : Vec1) : Mat :=
  let bias1 := vecAdd bias0 implicit_bias
  let bias2 := broadcast4 bias1 gradient
  let bias_gradient := normalize4 (abs4 (mul4 bias2 gradient))
  (List.range ((bias_gradient.headD []).length)).foldl
    (fun sal channel =>
      matAdd sal (zoomF (imageSize / (shape2of bias_gradient : ℚ))
        ((bias_gradient.headD []).getD channel [])))
    saliency_map

/-- The per-layer contribution as claim C4 words it: bias_total is the sum of
explicit and implicit bias, broadcast to the gradient shape; the term is
normalize(abs(bias_total * gradient)); each channel slice is upsampled by the
order-1 interpolation to the target resolution and added into the map.
Written from the claim, to be compared against layerStep. -/
def specLayerStep (zoomF : ℚ → Mat → Mat) (imageSize : ℚ) (salMap : Mat)
    (gradient : T4) (explicit_bias implicit_bias : Vec1) : Mat :=
  let bias_total := vecAdd explicit_bias implicit_bias
  let bias_b := broadcast4 bias_total gradient
  let term := normalize4 (abs4 (mul4 bias_b gradient))
  (List.range ((term.headD []).length)).foldl
    (fun m channel =>
      matAdd m (zoomF (imageSize / (shape2of term : ℚ)) ((term.headD []).getD channel [])))
    salMap

/-- The layer loop of the saliency computation acting on already fetched
per-layer data (gradient slice, explicit bias, implicit bias), folding
layerStep over the layer list in order. layersLoop below interleaves the
same computation with the tensor fetches, exactly as the notebook does. -/
def accMap (zoomF : ℚ → Mat → Mat) (imageSize : ℚ) (sal : Mat)
    (layers : List (T4 × Vec1 × Vec1)) : Mat :=
  layers.foldl (fun s l => layerStep zoomF imageSize s l.1 l.2.1 l.2.2) sal

/-- The final saliency map for one batch item: base term, layer
contributions in list order, then the final normalize. -/
def fullGrad (zoomF : ℚ → Mat → Mat) (imageSize : ℚ) (image image_gradient : T3)
    (layers : List (T4 × Vec1 × Vec1)) : Mat :=
  normalize2 (accMap zoomF imageSize (baseTerm image_gradient image) layers)

/-
The trial store and the error model. The notebook catches exactly
smdebug.exceptions.TensorUnavailableForStep; every other exception
propagates. Lookups are indexed by tensor name and step number (the EVAL
mode argument is constant in the notebook and therefore dropped).
-/

inductive TErr where
  | tensorUnavailableForStep
  | otherError
deriving DecidableEq

structure Trial where
  vec : String → ℕ → Except TErr Vec1
  mat : String → ℕ → Except TErr Mat
  t4 : String → ℕ → Except TErr T4
  steps : List ℕ
  loaded_all_steps : Bool

/-- The elementwise formula - running_mean / np.sqrt(running_var) * weight,
with sq the abstract np.sqrt. -/
def implicitBiasVec (sq : ℚ → ℚ) (weight running_var running_mean : Vec1) : Vec1 :=
  List.zipWith (fun x w => x * w)
    (List.zipWith (fun m v => (-m) / sq v) running_mean running_var) weight

def zipWith3 {α β γ δ : Type} (f : α → β → γ → δ) : List α → List β → List γ → List δ
  | a :: as, b :: bs, c :: cs => f a b c :: zipWith3 f as bs cs
  | _, _, _ => []

/-- compute_implicit_biases of the notebook: iterate over the zipped name
lists, fetch weight, running_var and running_mean for the step, and append
the implicit bias of each layer in order. Python zip truncates to the
shortest list, as does the triple pattern here. -/
def compute_implicit_biases (view : Trial) (sq : ℚ → ℚ) :
    List String → List String → List String → ℕ → Except TErr (List Vec1)
  | wn :: wns, vn :: vns, mn :: mns, step =>
    match view.vec wn step with
    | Except.error e => Except.error e
    | Except.ok weight =>
      match view.vec vn step with
      | Except.error e => Except.error e
      | Except.ok running_var =>
        match view.vec mn step with
        | Except.error e => Except.error e
        | Except.ok running_mean =>
          match compute_implicit_biases view sq wns vns mns step with
          | Except.error e => Except.error e
          | Except.ok rest =>
            Except.ok (implicitBiasVec sq weight running_var running_mean :: rest)
  | _, _, _, _ => Except.ok []

/-
The rendering loop. Rendering one step iterates over the batch items of
the input image tensor; plotting is modelled as emitting a plotted event
(cv2 and matplotlib drawing is display-only and external). The except
clause of the notebook prints and continues, modelled as a skippedStep
event. Within one loop iteration the store is read through a single
snapshot view.
-/

inductive Event where
  | plotted (step item : ℕ) (saliency : Mat) (image : T3) (cls : ℕ) (prob : ℚ)
  | skippedStep (step : ℕ)
deriving DecidableEq

/-- np.argmax on a vector: index of the first maximal entry; 0 on []. -/
def argmaxAux : List ℚ → ℕ → ℕ → ℚ → ℕ
  | [], _, bi, _ => bi
  | x :: xs, i, bi, bv => if bv < x then argmaxAux xs (i + 1) i x else argmaxAux xs (i + 1) bi bv

def argmaxIdx : Vec1 → ℕ
  | [] => 0
  | x :: xs => argmaxAux xs 1 0 x

def sumList (l : List ℚ) : ℚ := l.foldl (fun a b => a + b) 0

/-- np.max(scores) * 100 where scores is the softmax of the logits computed
with the abstract exponential expQ; the str(int(..)) display formatting of
the plot title is dropped. -/
def probOf (expQ : ℚ → ℚ) (logits : Vec1) : ℚ :=
  let scores := logits.map expQ
  npMax (scores.map (fun s => s / sumList scores)) * 100

/-- The fixed data of the rendering loop: the abstract library functions and
the tensor-name lists collected earlier in the notebook. -/
structure Params where
  zoomF : ℚ → Mat → Mat
  sqrtQ : ℚ → ℚ
  expQ : ℚ → ℚ
  imageSize : ℚ
  gradients : List String
  biases : List String
  bn_weights : List String
  running_vars : List String
  running_means : List String

/-- Python slice t[item:item+1]. -/
def slice1 (t : T4) (item : ℕ) : T4 := (t.drop item).take 1

/-- Python indexing t[item] on the batch axis of a 4D tensor. -/
def idx3 (t : T4) (item : ℕ) : T3 := t.getD item []

/-- Python indexing t[item] on the batch axis of a 2D tensor. -/
def idx1 (t : Mat) (item : ℕ) : Vec1 := t.getD item []

/-- The inner for-loop over zip(gradients, biases, implicit_biases): fetch
the layer gradient and explicit bias, then apply layerStep; an exception in
a fetch aborts the loop, exactly as in the notebook. -/
def layersLoop (P : Params) (view : Trial) (step item : ℕ) :
    List (String × String × Vec1) → Mat → Except TErr Mat
  | [], sal => Except.ok sal
  | (gname, bname, ib) :: rest, sal =>
    match view.t4 gname step with
    | Except.error e => Except.error e
    | Except.ok gfull =>
      match view.vec bname step with
      | Except.error e => Except.error e
      | Except.ok bias =>
        layersLoop P view step item rest
          (layerStep P.zoomF P.imageSize sal (slice1 gfull item) bias ib)

/-- The body of the loop over batch items: fetch the image gradient, build
the base term, run the layer loop, normalize, fetch the logits, plot. -/
def itemBody (P : Params) (view : Trial) (step : ℕ) (image_batch : T4)
    (ibs : List Vec1) (item : ℕ) : Except TErr Event :=
  match view.t4 "gradient/image" step with
  | Except.error e => Except.error e
  | Except.ok gimgFull =>
    match layersLoop P view step item (zipWith3 (fun a b c => (a, b, c)) P.gradients P.biases ibs)
        (baseTerm (idx3 gimgFull item) (idx3 image_batch item)) with
    | Except.error e => Except.error e
    | Except.ok sal =>
      match view.mat "fc_output_0" step with
      | Except.error e => Except.error e
      | Except.ok fcAll =>
        Except.ok (Event.plotted step item (normalize2 sal) (idx3 image_batch item)
          (argmaxIdx (idx1 fcAll item)) (probOf P.expQ (idx1 fcAll item)))

/-- Iterate itemBody over the batch items; an exception keeps the events of
the items already plotted (they were displayed before the exception) and
stops the iteration. -/
def itemsFold (P : Params) (view : Trial) (step : ℕ) (image_batch : T4)
    (ibs : List Vec1) : List ℕ → List Event × Option TErr
  | [] => ([], none)
  | i :: rest =>
    match itemBody P view step image_batch ibs i with
    | Except.error e => ([], some e)
    | Except.ok ev =>
      (ev :: (itemsFold P view step image_batch ibs rest).1,
        (itemsFold P view step image_batch ibs rest).2)

/-- The try-block body for one step: fetch the input image batch, compute
the implicit biases, then loop over the batch items. The first component is
the list of plots actually displayed, the second the exception, if any. -/
def processStep (P : Params) (view : Trial) (step : ℕ) : List Event × Option TErr :=
  match view.t4 "ResNet_input_0" step with
  | Except.error e => ([], some e)
  | Except.ok image_batch =>
    match compute_implicit_biases view P.sqrtQ P.bn_weights P.running_vars
        P.running_means step with
    | Except.error e => ([], some e)
    | Except.ok ibs =>
      itemsFold P view step image_batch ibs (List.range image_batch.length)

/-- The for-loop over sorted(steps_to_render) with its try/except: only
tensorUnavailableForStep is caught (logged as a skippedStep event); any
other exception propagates out of the loop with the events displayed so
far. -/
def processSteps (P : Params) (view : Trial) : List ℕ → List Event × Option TErr
  | [] => ([], none)
  | s :: rest =>
    match (processStep P view s).2 with
    | none =>
      ((processStep P view s).1 ++ (processSteps P view rest).1,
        (processSteps P view rest).2)
    | some TErr.tensorUnavailableForStep =>
      ((processStep P view s).1 ++ (Event.skippedStep s :: (processSteps P view rest).1),
        (processSteps P view rest).2)
    | some TErr.otherError => ((processStep P view s).1, some TErr.otherError)

/-- list(set(steps).symmetric_difference(set(rendered_steps))), followed by
sorted(..): the sorted duplicate-free symmetric difference. The notebook
extends rendered_steps with the unsorted variant of the same set, so using
the sorted list for both is membership-equivalent. -/
def sortedSymmDiff (steps rendered : List ℕ) : List ℕ :=
  List.insertionSort (· ≤ ·)
    (((steps ++ rendered).dedup).filter
      (fun s => (decide (s ∈ steps)) != (decide (s ∈ rendered))))

inductive LoopOutcome where
  | done (events : List Event) (rendered : List ℕ)
  | fatal (e : TErr) (events : List Event)
deriving DecidableEq

/-- The outer polling loop:
    while not loaded_all_steps:
        loaded_all_steps = trial.loaded_all_steps
        steps = trial.steps(mode=modes.EVAL)
        steps_to_render = list(set(steps).symmetric_difference(set(rendered_steps)))
        for step in sorted(steps_to_render): try .. except TensorUnavailableForStep ..
        rendered_steps.extend(steps_to_render)
        time.sleep(5)
env gives the store snapshot seen by iteration number; fuel bounds the
number of iterations (none = fuel exhausted, the loop is still running). -/
def pollGo (P : Params) (env : ℕ → Trial) :
    ℕ → ℕ → Bool → List ℕ → List Event → Option LoopOutcome
  | 0, _, _, _, _ => none
  | fuel + 1, iter, flag, rendered, events =>
    if flag then some (LoopOutcome.done events rendered)
    else
      let view := env iter
      let flag2 := view.loaded_all_steps
      let str := sortedSymmDiff view.steps rendered
      let r := processSteps P view str
      match r.2 with
      | some e => some (LoopOutcome.fatal e (events ++ r.1))
      | none => pollGo P env fuel (iter + 1) flag2 (rendered ++ str) (events ++ r.1)

def pollRun (P : Params) (env : ℕ → Trial) (fuel : ℕ) : Option LoopOutcome :=
  pollGo P env fuel 0 false [] []

def plottedSteps (evs : List Event) : List ℕ :=
  evs.filterMap (fun e => match e with
    | Event.plotted s _ _ _ _ _ => some s
    | _ => none)

def outcomePlotted : Option LoopOutcome → Option (List ℕ)
  | some (LoopOutcome.done evs _) => some (plottedSteps evs)
  | _ => none

def outcomeRendered : Option LoopOutcome → Option (List ℕ)
  | some (LoopOutcome.done _ r) => some r
  | _ => none

/-- True when the event list contains a plot of the given step. -/
def hasPlotOfStep (s : ℕ) (evs : List Event) : Bool :=
  evs.any (fun e => match e with
    | Event.plotted s2 _ _ _ _ _ => s2 == s
    | _ => false)

/-- The rendered_steps list at the start of iteration i, following the
update rendered_steps.extend(steps_to_render) of the loop body. -/
def renderedAt (env : ℕ → Trial) : ℕ → List ℕ
  | 0 => []
  | i + 1 => renderedAt env i ++ sortedSymmDiff (env i).steps (renderedAt env i)

/-- The steps_to_render list of iteration i. -/
def stepsToRenderAt (env : ℕ → Trial) (i : ℕ) : List ℕ :=
  sortedSymmDiff (env i).steps (renderedAt env i)

/-- The data source never removes an available step. -/
def stepsMono (env : ℕ → Trial) : Prop :=
  ∀ i j, i ≤ j → ∀ s ∈ (env i).steps, s ∈ (env j).steps

/-
The initial waiting cell of the notebook:
    steps = 0
    while steps == 0:
        steps = trial.steps()
        time.sleep(3)
The loop variable first holds the int 0 and then whatever list
trial.steps() returned; in Python a list never compares equal to the int
0, so the loop condition is False as soon as any list is assigned, even
the empty one. PyVal embeds this dynamically typed variable.
-/

inductive PyVal where
  | int (n : ℤ)
  | list (l : List ℕ)
deriving DecidableEq

/-- The Python comparison steps == 0: an int compares by value, a list
never equals the int 0. -/
def pyEqZero : PyVal → Bool
  | PyVal.int n => n == 0
  | PyVal.list _ => false

def waitingGo (responses : ℕ → List ℕ) : ℕ → ℕ → PyVal → Option PyVal
  | 0, _, _ => none
  | fuel + 1, i, st =>
    if pyEqZero st then waitingGo responses fuel (i + 1) (PyVal.list (responses i))
    else some st

/-- The waiting loop, polling responses i at the i-th call of
trial.steps(); returns the value of the loop variable at exit. -/
def waitingLoop (responses : ℕ → List ℕ) (fuel : ℕ) : Option PyVal :=
  waitingGo responses fuel 0 (PyVal.int 0)

/-
Concrete fixtures used by witnesses and counterexamples.
-/

/-- Params with empty layer lists and trivial abstract library functions. -/
def P0 : Params :=
  { zoomF := fun _ m => m
    sqrtQ := id
    expQ := id
    imageSize := 224
    gradients := []
    biases := []
    bn_weights := []
    running_vars := []
    running_means := [] }

/-- A 1x1x1x1 tensor batch. -/
def okT4 : T4 := [[[[1]]]]

/-- A store snapshot whose lookups all succeed. -/
def mkView (flag : Bool) (steps : List ℕ) : Trial :=
  { vec := fun _ _ => Except.ok []
    mat := fun _ _ => Except.ok [[2]]
    t4 := fun _ _ => Except.ok okT4
    steps := steps
    loaded_all_steps := flag }

/-- The mock data source of claim C7: steps [1,2] at the first poll, then
[1,2,3], with loaded_all_steps turning true only after step 3 is fetched. -/
def env7 : ℕ → Trial
  | 0 => mkView false [1, 2]
  | 1 => mkView false [1, 2, 3]
  | _ => mkView true [1, 2, 3]

/-- A snapshot where every tensor of step 1 is still unavailable and step 2
is fully available. -/
def view6 : Trial :=
  { mkView false [1, 2] with
    t4 := fun _ st =>
      if st = 1 then Except.error TErr.tensorUnavailableForStep else Except.ok okT4 }

/-- A snapshot whose lookups raise an exception other than
TensorUnavailableForStep. -/
def view6b : Trial :=
  { mkView false [1] with t4 := fun _ _ => Except.error TErr.otherError }

/-- A data source with the constant step list [5] whose tensors are
unavailable at iteration 0 and available from iteration 1 on. -/
def env10 : ℕ → Trial := fun i =>
  { mkView false [5] with
    t4 := fun _ _ =>
      if i = 0 then Except.error TErr.tensorUnavailableForStep else Except.ok okT4 }

/-- A store serving one batch-normalization layer by name. -/
def view3 : Trial :=
  { mkView false [] with
    vec := fun n _ =>
      if n = "bn_w" then Except.ok [2]
      else if n = "bn_v" then Except.ok [4]
      else if n = "bn_m" then Except.ok [6]
      else Except.ok [] }

/-- A 2x1x2 image gradient with distinct per-channel ranges. -/
def G0 : T3 := [[[0, 1]], [[0, 1]]]

/-- An all-ones 2x1x2 image. -/
def I0 : T3 := [[[1, 1]], [[1, 1]]]


/-
Helper lemmas about npMin, npMax and the flattened views of tensors.
-/

theorem foldl_min_le_init : ∀ (xs : List ℚ) (a : ℚ), List.foldl min a xs ≤ a
  | [], a => le_refl a
  | x :: xs, a => by
      simpa using le_trans (foldl_min_le_init xs (min a x)) (min_le_left a x)

theorem foldl_min_le_mem : ∀ (xs : List ℚ) (a x : ℚ), x ∈ xs → List.foldl min a xs ≤ x
  | [], _, _, h => absurd h (List.not_mem_nil _)
  | y :: ys, a, x, h => by
      simp only [List.foldl_cons]
      rcases List.mem_cons.mp h with h1 | h2
      · cases h1
        exact le_trans (foldl_min_le_init ys _) (min_le_right _ _)
      · exact foldl_min_le_mem ys (min a y) x h2

theorem foldl_min_mem : ∀ (xs : List ℚ) (a : ℚ),
    List.foldl min a xs = a ∨ List.foldl min a xs ∈ xs
  | [], _ => Or.inl rfl
  | x :: xs, a => by
      simp only [List.foldl_cons]
      rcases foldl_min_mem xs (min a x) with h | h
      · rcases min_choice a x with h2 | h2
        · exact Or.inl (h.trans h2)
        · exact Or.inr (by rw [h, h2]; exact List.mem_cons_self x xs)
      · exact Or.inr (List.mem_cons_of_mem x h)

theorem foldl_max_init_le : ∀ (xs : List ℚ) (a : ℚ), a ≤ List.foldl max a xs
  | [], a => le_refl a
  | x :: xs, a => by
      simpa using le_trans (le_max_left a x) (foldl_max_init_le xs (max a x))

theorem foldl_max_mem_le : ∀ (xs : List ℚ) (a x : ℚ), x ∈ xs → x ≤ List.foldl max a xs
  | [], _, _, h => absurd h (List.not_mem_nil _)
  | y :: ys, a, x, h => by
      simp only [List.foldl_cons]
      rcases List.mem_cons.mp h with h1 | h2
      · cases h1
        exact le_trans (le_max_right _ _) (foldl_max_init_le ys _)
      · exact foldl_max_mem_le ys (max a y) x h2

theorem foldl_max_mem : ∀ (xs : List ℚ) (a : ℚ),
    List.foldl max a xs = a ∨ List.foldl max a xs ∈ xs
  | [], _ => Or.inl rfl
  | x :: xs, a => by
      simp only [List.foldl_cons]
      rcases foldl_max_mem xs (max a x) with h | h
      · rcases max_choice a x with h2 | h2
        · exact Or.inl (h.trans h2)
        · exact Or.inr (by rw [h, h2]; exact List.mem_cons_self x xs)
      · exact Or.inr (List.mem_cons_of_mem x h)

theorem npMin_le {l : List ℚ} {x : ℚ} (h : x ∈ l) : npMin l ≤ x := by
  cases l with
  | nil => exact absurd h (List.not_mem_nil x)
  | cons y ys =>
      simp only [npMin]
      rcases List.mem_cons.mp h with h1 | h2
      · cases h1
        exact foldl_min_le_init ys x
      · exact foldl_min_le_mem ys y x h2

theorem npMin_mem {l : List ℚ} (h : l ≠ []) : npMin l ∈ l := by
  cases l with
  | nil => exact absurd rfl h
  | cons y ys =>
      simp only [npMin]
      rcases foldl_min_mem ys y with h1 | h1
      · rw [h1]
        exact List.mem_cons_self y ys
      · exact List.mem_cons_of_mem y h1

theorem le_npMax {l : List ℚ} {x : ℚ} (h : x ∈ l) : x ≤ npMax l := by
  cases l with
  | nil => exact absurd h (List.not_mem_nil x)
  | cons y ys =>
      simp only [npMax]
      rcases List.mem_cons.mp h with h1 | h2
      · cases h1
        exact foldl_max_init_le ys x
      · exact foldl_max_mem_le ys y x h2

theorem npMax_mem {l : List ℚ} (h : l ≠ []) : npMax l ∈ l := by
  cases l with
  | nil => exact absurd rfl h
  | cons y ys =>
      simp only [npMax]
      rcases foldl_max_mem ys y with h1 | h1
      · rw [h1]
        exact List.mem_cons_self y ys
      · exact List.mem_cons_of_mem y h1

theorem nonconst_ne_nil {l : List ℚ} (h : nonconst l) : l ≠ [] := by
  intro hn
  rw [hn] at h
  simp [nonconst, npMin, npMax] at h

theorem flatten_map_map {α β : Type} (f : α → β) (t : List (List α)) :
    (t.map (fun r => r.map f)).flatten = t.flatten.map f := by
  induction t with
  | nil => rfl
  | cons x xs ih => simp only [List.map_cons, List.flatten_cons, List.map_append, ih]

theorem flat2_map2 (f : ℚ → ℚ) (t : Mat) : flat2 (map2 f t) = (flat2 t).map f :=
  flatten_map_map f t

theorem flat3_map3 (f : ℚ → ℚ) (t : T3) : flat3 (map3 f t) = (flat3 t).map f := by
  induction t with
  | nil => rfl
  | cons m ms ih =>
      show flat2 (map2 f m) ++ flat3 (map3 f ms) = (flat2 m ++ flat3 ms).map f
      rw [flat2_map2, ih, List.map_append]

theorem flat4_map4 (f : ℚ → ℚ) (t : T4) : flat4 (map4 f t) = (flat4 t).map f := by
  induction t with
  | nil => rfl
  | cons m ms ih =>
      show flat3 (map3 f m) ++ flat4 (map4 f ms) = (flat3 m ++ flat4 ms).map f
      rw [flat3_map3, ih, List.map_append]

theorem flat2_normalize2 (t : Mat) : flat2 (normalize2 t) = normalizeVals (flat2 t) := by
  simp only [normalize2, normShift2, normalizeDivisor2, normalizeVals, flat2_map2]

theorem flat3_normalize3 (t : T3) : flat3 (normalize3 t) = normalizeVals (flat3 t) := by
  simp only [normalize3, normShift3, normalizeDivisor3, normalizeVals, flat3_map3]

theorem flat4_normalize4 (t : T4) : flat4 (normalize4 t) = normalizeVals (flat4 t) := by
  simp only [normalize4, normShift4, normalizeDivisor4, normalizeVals, flat4_map4]

theorem foldl_max_map_sub : ∀ (xs : List ℚ) (a c : ℚ),
    List.foldl max (a - c) (xs.map (fun y => y - c)) = List.foldl max a xs - c
  | [], _, _ => rfl
  | x :: xs, a, c => by
      simp only [List.map_cons, List.foldl_cons, max_sub_sub_right]
      exact foldl_max_map_sub xs (max a x) c

theorem npMax_map_sub {l : List ℚ} (c : ℚ) (h : l ≠ []) :
    npMax (l.map (fun y => y - c)) = npMax l - c := by
  cases l with
  | nil => exact absurd rfl h
  | cons x xs =>
      simp only [List.map_cons, npMax]
      exact foldl_max_map_sub xs x c

/-- The central fact about the normalize helper on a non-constant value
list: every output value lies in the unit interval, the output minimum is 0
and the output maximum is 1. -/
theorem normalizeVals_core {l : List ℚ} (h : nonconst l) :
    inUnit (normalizeVals l) ∧ npMin (normalizeVals l) = 0 ∧ npMax (normalizeVals l) = 1 := by
  have hne : l ≠ [] := nonconst_ne_nil h
  have hM : npMax (l.map (fun y => y - npMin l)) = npMax l - npMin l :=
    npMax_map_sub (npMin l) hne
  have hMpos : 0 < npMax (l.map (fun y => y - npMin l)) := by
    rw [hM]
    exact sub_pos.mpr h
  have hMne : npMax (l.map (fun y => y - npMin l)) ≠ 0 := ne_of_gt hMpos
  have hUnit : inUnit (normalizeVals l) := by
    intro x hx
    simp only [normalizeVals, List.map_map, List.mem_map, Function.comp] at hx
    obtain ⟨z, hz, rfl⟩ := hx
    constructor
    · exact div_nonneg (sub_nonneg.mpr (npMin_le hz)) (le_of_lt hMpos)
    · rw [div_le_one hMpos, hM]
      exact sub_le_sub_right (le_npMax hz) (npMin l)
  have h0mem : (0 : ℚ) ∈ normalizeVals l := by
    simp only [normalizeVals, List.map_map, List.mem_map, Function.comp]
    exact ⟨npMin l, npMin_mem hne, by simp⟩
  have h1mem : (1 : ℚ) ∈ normalizeVals l := by
    simp only [normalizeVals, List.map_map, List.mem_map, Function.comp]
    refine ⟨npMax l, npMax_mem hne, ?_⟩
    rw [← hM]
    exact div_self hMne
  refine ⟨hUnit, ?_, ?_⟩
  · have h1 : npMin (normalizeVals l) ≤ 0 := npMin_le h0mem
    have h2 : 0 ≤ npMin (normalizeVals l) :=
      (hUnit _ (npMin_mem (List.ne_nil_of_mem h0mem))).1
    exact le_antisymm h1 h2
  · have h1 : 1 ≤ npMax (normalizeVals l) := le_npMax h1mem
    have h2 : npMax (normalizeVals l) ≤ 1 :=
      (hUnit _ (npMax_mem (List.ne_nil_of_mem h1mem))).2
    exact le_antisymm h2 h1



/-
Error-propagation lemmas. The tensor fetches of the item loop do not
depend on the item index (the batch indexing happens after retrieval on
the fetched array), so within one store snapshot either the first batch
item already raises or no item does.
-/

theorem layersLoop_error_indep (P : Params) (view : Trial) (step : ℕ) :
    ∀ (L : List (String × String × Vec1)) (i j : ℕ) (sal sal2 : Mat) (e : TErr),
      layersLoop P view step i L sal = Except.error e →
      layersLoop P view step j L sal2 = Except.error e := by
  intro L
  induction L with
  | nil =>
      intro i j sal sal2 e h
      simp [layersLoop] at h
  | cons hd rest ih =>
      intro i j sal sal2 e h
      obtain ⟨gn, bn, ib⟩ := hd
      cases hg : view.t4 gn step with
      | error e2 =>
          simp only [layersLoop, hg] at h ⊢
          exact h
      | ok gfull =>
          cases hb : view.vec bn step with
          | error e2 =>
              simp only [layersLoop, hg, hb] at h ⊢
              exact h
          | ok bias =>
              simp only [layersLoop, hg, hb] at h ⊢
              exact ih i j _ _ e h

theorem itemBody_error_indep (P : Params) (view : Trial) (step : ℕ) (batch : T4)
    (ibs : List Vec1) (i j : ℕ) (e : TErr)
    (h : itemBody P view step batch ibs i = Except.error e) :
    itemBody P view step batch ibs j = Except.error e := by
  cases hg : view.t4 "gradient/image" step with
  | error e2 =>
      simp only [itemBody, hg] at h ⊢
      exact h
  | ok gimgFull =>
      cases hl : layersLoop P view step i
          (zipWith3 (fun a b c => (a, b, c)) P.gradients P.biases ibs)
          (baseTerm (idx3 gimgFull i) (idx3 batch i)) with
      | error e2 =>
          have hlj := layersLoop_error_indep P view step _ i j _
            (baseTerm (idx3 gimgFull j) (idx3 batch j)) e2 hl
          simp only [itemBody, hg, hl, hlj] at h ⊢
          exact h
      | ok sal =>
          cases hlj : layersLoop P view step j
              (zipWith3 (fun a b c => (a, b, c)) P.gradients P.biases ibs)
              (baseTerm (idx3 gimgFull j) (idx3 batch j)) with
          | error e2 =>
              exact absurd (hl.symm.trans
                (layersLoop_error_indep P view step _ j i _ _ e2 hlj)) (by simp)
          | ok sal2 =>
              cases hm : view.mat "fc_output_0" step with
              | error e2 =>
                  simp only [itemBody, hg, hl, hlj, hm] at h ⊢
                  exact h
              | ok fcAll =>
                  simp [itemBody, hg, hl, hm] at h

theorem itemsFold_error_mem (P : Params) (view : Trial) (step : ℕ) (batch : T4)
    (ibs : List Vec1) :
    ∀ (items : List ℕ) (e : TErr),
      (itemsFold P view step batch ibs items).2 = some e →
      ∃ i ∈ items, itemBody P view step batch ibs i = Except.error e := by
  intro items
  induction items with
  | nil =>
      intro e h
      simp [itemsFold] at h
  | cons i rest ih =>
      intro e h
      cases hb : itemBody P view step batch ibs i with
      | error e2 =>
          simp only [itemsFold, hb] at h
          simp at h
          rw [h] at hb
          exact ⟨i, List.mem_cons_self i rest, hb⟩
      | ok ev =>
          simp only [itemsFold, hb] at h
          obtain ⟨v, hv, hverr⟩ := ih e h
          exact ⟨v, List.mem_cons_of_mem i hv, hverr⟩

theorem itemsFold_error_nil (P : Params) (view : Trial) (step : ℕ) (batch : T4)
    (ibs : List Vec1) (items : List ℕ) (e : TErr)
    (h : (itemsFold P view step batch ibs items).2 = some e) :
    (itemsFold P view step batch ibs items).1 = [] := by
  cases items with
  | nil => simp [itemsFold] at h
  | cons i rest =>
      cases hb : itemBody P view step batch ibs i with
      | error e2 => simp [itemsFold, hb]
      | ok ev =>
          exfalso
          have h2 : (itemsFold P view step batch ibs rest).2 = some e := by
            simpa only [itemsFold, hb] using h
          obtain ⟨v, hv, hverr⟩ := itemsFold_error_mem P view step batch ibs rest e h2
          exact absurd
            ((itemBody_error_indep P view step batch ibs v i e hverr).symm.trans hb) (by simp)

theorem processStep_error_nil (P : Params) (view : Trial) (step : ℕ) (e : TErr)
    (h : (processStep P view step).2 = some e) :
    (processStep P view step).1 = [] := by
  cases h1 : view.t4 "ResNet_input_0" step with
  | error e2 => simp [processStep, h1]
  | ok batch =>
      cases h2 : compute_implicit_biases view P.sqrtQ P.bn_weights P.running_vars
          P.running_means step with
      | error e2 => simp [processStep, h1, h2]
      | ok ibs =>
          simp only [processStep, h1, h2] at h ⊢
          exact itemsFold_error_nil P view step batch ibs _ e h

theorem itemBody_ok_step (P : Params) (view : Trial) (step : ℕ) (batch : T4)
    (ibs : List Vec1) (i : ℕ) (ev : Event)
    (h : itemBody P view step batch ibs i = Except.ok ev) :
    ∃ sal img cls pr, ev = Event.plotted step i sal img cls pr := by
  cases hg : view.t4 "gradient/image" step with
  | error e2 => simp [itemBody, hg] at h
  | ok gimgFull =>
      cases hl : layersLoop P view step i
          (zipWith3 (fun a b c => (a, b, c)) P.gradients P.biases ibs)
          (baseTerm (idx3 gimgFull i) (idx3 batch i)) with
      | error e2 => simp [itemBody, hg, hl] at h
      | ok sal =>
          cases hm : view.mat "fc_output_0" step with
          | error e2 => simp [itemBody, hg, hl, hm] at h
          | ok fcAll =>
              simp only [itemBody, hg, hl, hm] at h
              exact ⟨_, _, _, _, (Except.ok.inj h).symm⟩

theorem itemsFold_plots_tag (P : Params) (view : Trial) (step : ℕ) (batch : T4)
    (ibs : List Vec1) :
    ∀ (items : List ℕ) (s2 it : ℕ) (sal : Mat) (img : T3) (cls : ℕ) (pr : ℚ),
      Event.plotted s2 it sal img cls pr ∈ (itemsFold P view step batch ibs items).1 →
      s2 = step := by
  intro items
  induction items with
  | nil =>
      intro s2 it sal img cls pr hmem
      simp [itemsFold] at hmem
  | cons i rest ih =>
      intro s2 it sal img cls pr hmem
      cases hb : itemBody P view step batch ibs i with
      | error e =>
          simp [itemsFold, hb] at hmem
      | ok ev =>
          simp only [itemsFold, hb] at hmem
          rcases List.mem_cons.mp hmem with h1 | h1
          · obtain ⟨sal2, img2, cls2, pr2, hev⟩ := itemBody_ok_step P view step batch ibs i ev hb
            rw [hev] at h1
            injection h1
          · exact ih s2 it sal img cls pr h1

theorem processStep_plots_tag (P : Params) (view : Trial) (s0 s2 it : ℕ) (sal : Mat)
    (img : T3) (cls : ℕ) (pr : ℚ)
    (h : Event.plotted s2 it sal img cls pr ∈ (processStep P view s0).1) : s2 = s0 := by
  cases h1 : view.t4 "ResNet_input_0" s0 with
  | error e => simp [processStep, h1] at h
  | ok batch =>
      cases h2 : compute_implicit_biases view P.sqrtQ P.bn_weights P.running_vars
          P.running_means s0 with
      | error e => simp [processStep, h1, h2] at h
      | ok ibs =>
          simp only [processStep, h1, h2] at h
          exact itemsFold_plots_tag P view s0 batch ibs _ s2 it sal img cls pr h

theorem hasPlotOfStep_processStep (P : Params) (view : Trial) (s0 s : ℕ)
    (h : hasPlotOfStep s (processStep P view s0).1 = true) : s = s0 := by
  simp only [hasPlotOfStep, List.any_eq_true] at h
  obtain ⟨e, he, hpe⟩ := h
  cases e with
  | plotted s2 it sal img cls pr =>
      simp only [beq_iff_eq] at hpe
      rw [← hpe]
      exact processStep_plots_tag P view s0 s2 it sal img cls pr he
  | skippedStep s2 => simp at hpe

theorem processSteps_fatal_none (P : Params) (view : Trial) :
    ∀ steps : List ℕ,
      (∀ u ∈ steps, (processStep P view u).2 ≠ some TErr.otherError) →
      (processSteps P view steps).2 = none := by
  intro steps
  induction steps with
  | nil =>
      intro _
      rfl
  | cons u rest ih =>
      intro hall
      have hrest := fun v hv => hall v (List.mem_cons_of_mem u hv)
      cases h2 : (processStep P view u).2 with
      | none =>
          simp only [processSteps, h2]
          exact ih hrest
      | some e =>
          cases e with
          | tensorUnavailableForStep =>
              simp only [processSteps, h2]
              exact ih hrest
          | otherError => exact absurd h2 (hall u (List.mem_cons_self u rest))

theorem processSteps_fatal_some (P : Params) (view : Trial) :
    ∀ steps : List ℕ,
      (∃ u ∈ steps, (processStep P view u).2 = some TErr.otherError) →
      (processSteps P view steps).2 = some TErr.otherError := by
  intro steps
  induction steps with
  | nil =>
      rintro ⟨u, hu, _⟩
      simp at hu
  | cons u rest ih =>
      rintro ⟨v, hv, hverr⟩
      cases h2 : (processStep P view u).2 with
      | none =>
          simp only [processSteps, h2]
          rcases List.mem_cons.mp hv with rfl | hv2
          · rw [hverr] at h2
            simp at h2
          · exact ih ⟨v, hv2, hverr⟩
      | some e =>
          cases e with
          | tensorUnavailableForStep =>
              simp only [processSteps, h2]
              rcases List.mem_cons.mp hv with rfl | hv2
              · rw [hverr] at h2
                simp at h2
              · exact ih ⟨v, hv2, hverr⟩
          | otherError => simp only [processSteps, h2]

theorem processSteps_skipped_mem (P : Params) (view : Trial) :
    ∀ (steps : List ℕ) (s : ℕ), s ∈ steps →
      (∀ u ∈ steps, (processStep P view u).2 ≠ some TErr.otherError) →
      (processStep P view s).2 = some TErr.tensorUnavailableForStep →
      Event.skippedStep s ∈ (processSteps P view steps).1 := by
  intro steps
  induction steps with
  | nil =>
      intro s hs
      simp at hs
  | cons u rest ih =>
      intro s hs hall hserr
      rcases List.mem_cons.mp hs with rfl | hs2
      · simp only [processSteps, hserr]
        exact List.mem_append.mpr (Or.inr (List.mem_cons_self _ _))
      · have hmem := ih s hs2 (fun v hv => hall v (List.mem_cons_of_mem u hv)) hserr
        cases h2 : (processStep P view u).2 with
        | none =>
            simp only [processSteps, h2]
            exact List.mem_append.mpr (Or.inr hmem)
        | some e =>
            cases e with
            | tensorUnavailableForStep =>
                simp only [processSteps, h2]
                exact List.mem_append.mpr (Or.inr (List.mem_cons_of_mem _ hmem))
            | otherError => exact absurd h2 (hall u (List.mem_cons_self u rest))

theorem processSteps_hasPlot (P : Params) (view : Trial) :
    ∀ (steps : List ℕ) (s : ℕ),
      hasPlotOfStep s (processSteps P view steps).1 = true →
      ∃ u ∈ steps, hasPlotOfStep s (processStep P view u).1 = true := by
  intro steps
  induction steps with
  | nil =>
      intro s h
      simp [processSteps, hasPlotOfStep] at h
  | cons u rest ih =>
      intro s h
      cases h2 : (processStep P view u).2 with
      | none =>
          simp only [processSteps, h2] at h
          simp only [hasPlotOfStep, List.any_append, Bool.or_eq_true] at h
          rcases h with h | h
          · exact ⟨u, List.mem_cons_self u rest, h⟩
          · obtain ⟨v, hv, hvp⟩ := ih s h
            exact ⟨v, List.mem_cons_of_mem u hv, hvp⟩
      | some e =>
          cases e with
          | tensorUnavailableForStep =>
              simp only [processSteps, h2] at h
              simp only [hasPlotOfStep, List.any_append, List.any_cons,
                Bool.or_eq_true] at h
              rcases h with h | h
              · exact ⟨u, List.mem_cons_self u rest, h⟩
              · rcases h with h | h
                · simp at h
                · obtain ⟨v, hv, hvp⟩ := ih s h
                  exact ⟨v, List.mem_cons_of_mem u hv, hvp⟩
          | otherError =>
              simp only [processSteps, h2] at h
              exact ⟨u, List.mem_cons_self u rest, h⟩

/-
Lemmas about the symmetric-difference step selection and the evolution of
rendered_steps across polling iterations.
-/

theorem mem_sortedSymmDiff {a : ℕ} {steps rendered : List ℕ} :
    a ∈ sortedSymmDiff steps rendered ↔
      ((a ∈ steps ∧ a ∉ rendered) ∨ (a ∈ rendered ∧ a ∉ steps)) := by
  unfold sortedSymmDiff
  rw [(List.perm_insertionSort (· ≤ ·) _).mem_iff]
  simp only [List.mem_filter, List.mem_dedup, List.mem_append, bne_iff_ne, ne_eq,
    decide_eq_decide]
  constructor
  · rintro ⟨h1, h2⟩
    by_cases hs : a ∈ steps
    · exact Or.inl ⟨hs, fun hr => h2 (iff_of_true hs hr)⟩
    · rcases h1 with h | h
      · exact absurd h hs
      · exact Or.inr ⟨h, hs⟩
  · rintro (⟨h1, h2⟩ | ⟨h1, h2⟩)
    · exact ⟨Or.inl h1, fun hiff => h2 (hiff.mp h1)⟩
    · exact ⟨Or.inr h1, fun hiff => h2 (hiff.mpr h1)⟩

theorem renderedAt_sub_steps (env : ℕ → Trial) (hm : stepsMono env) :
    ∀ i, ∀ s ∈ renderedAt env (i + 1), s ∈ (env i).steps := by
  intro i
  induction i with
  | zero =>
      intro s hs
      rw [renderedAt] at hs
      rcases List.mem_append.mp hs with h1 | h1
      · simp [renderedAt] at h1
      · rcases mem_sortedSymmDiff.mp h1 with ⟨h2, _⟩ | ⟨h2, _⟩
        · exact h2
        · simp [renderedAt] at h2
  | succ k ih =>
      intro s hs
      rw [renderedAt] at hs
      rcases List.mem_append.mp hs with h1 | h1
      · exact hm k (k + 1) (Nat.le_succ k) s (ih s h1)
      · rcases mem_sortedSymmDiff.mp h1 with ⟨h2, _⟩ | ⟨h2, h3⟩
        · exact h2
        · exact absurd (hm k (k + 1) (Nat.le_succ k) s (ih s h2)) h3

theorem renderedAt_mono (env : ℕ → Trial) (i j : ℕ) (hij : i ≤ j) :
    ∀ s ∈ renderedAt env i, s ∈ renderedAt env j := by
  intro s hs
  induction j, hij using Nat.le_induction with
  | base => exact hs
  | succ n hn ih =>
      rw [renderedAt]
      exact List.mem_append.mpr (Or.inl ih)

/-
Lemmas for the implicit-bias reconstructor.
-/

theorem zipWith3_length {α β γ δ : Type} (f : α → β → γ → δ) :
    ∀ (as : List α) (bs : List β) (cs : List γ),
      (zipWith3 f as bs cs).length = min as.length (min bs.length cs.length) := by
  intro as
  induction as with
  | nil =>
      intro bs cs
      simp [zipWith3]
  | cons a as ih =>
      intro bs cs
      cases bs with
      | nil => simp [zipWith3]
      | cons b bs =>
          cases cs with
          | nil => simp [zipWith3]
          | cons c cs =>
              simp only [zipWith3, List.length_cons, ih]
              omega

theorem zipWith3_getD (f : Vec1 → Vec1 → Vec1 → Vec1) :
    ∀ (as bs cs : List Vec1) (i : ℕ), i < as.length → i < bs.length → i < cs.length →
      (zipWith3 f as bs cs).getD i [] = f (as.getD i []) (bs.getD i []) (cs.getD i []) := by
  intro as
  induction as with
  | nil =>
      intro bs cs i h1
      simp at h1
  | cons a as ih =>
      intro bs cs i h1 h2 h3
      cases bs with
      | nil => simp at h2
      | cons b bs =>
          cases cs with
          | nil => simp at h3
          | cons c cs =>
              cases i with
              | zero => rfl
              | succ n =>
                  simp only [zipWith3, List.getD_cons_succ]
                  exact ih bs cs n (by simpa using h1) (by simpa using h2) (by simpa using h3)

theorem compute_implicit_biases_ok (view : Trial) (sq : ℚ → ℚ) (step : ℕ) :
    ∀ (wns : List String) (vns mns : List String) (ws vs ms : List Vec1),
      List.Forall₂ (fun n v => view.vec n step = Except.ok v) wns ws →
      List.Forall₂ (fun n v => view.vec n step = Except.ok v) vns vs →
      List.Forall₂ (fun n v => view.vec n step = Except.ok v) mns ms →
      compute_implicit_biases view sq wns vns mns step =
        Except.ok (zipWith3 (implicitBiasVec sq) ws vs ms) := by
  intro wns
  induction wns with
  | nil =>
      intro vns mns ws vs ms hw hv hm
      cases hw
      cases vns <;> cases mns <;> simp [compute_implicit_biases, zipWith3]
  | cons wn wns ih =>
      intro vns mns ws vs ms hw hv hm
      cases hw with
      | cons hwn hwrest =>
          cases hv with
          | nil =>
              cases hm <;> simp [compute_implicit_biases, zipWith3]
          | cons hvn hvrest =>
              cases hm with
              | nil => simp [compute_implicit_biases, zipWith3]
              | cons hmn hmrest =>
                  simp only [compute_implicit_biases, zipWith3, hwn, hvn, hmn,
                    ih _ _ _ _ _ hwrest hvrest hmrest]

/-
Auxiliary facts for the constant-tensor analysis of normalize (claim C8).
-/

theorem zip_mul_zero1 : ∀ l : List ℚ,
    List.zipWith (fun p q => p * q) (l.map (fun _ => (0 : ℚ))) l = l.map (fun _ => 0)
  | [] => rfl
  | x :: xs => by
      simp only [List.map_cons, List.zipWith_cons_cons, zero_mul]
      exact congrArg _ (zip_mul_zero1 xs)

theorem zip_mul_zero2 : ∀ m : Mat,
    List.zipWith (fun r s => List.zipWith (fun p q => p * q) r s)
      (m.map (fun r => r.map (fun _ => (0 : ℚ)))) m = m.map (fun r => r.map (fun _ => 0))
  | [] => rfl
  | r :: rs => by
      simp only [List.map_cons, List.zipWith_cons_cons]
      rw [zip_mul_zero1 r]
      exact congrArg _ (zip_mul_zero2 rs)

theorem mul3_zero : ∀ t : T3, mul3 (map3 (fun _ => 0) t) t = map3 (fun _ => 0) t
  | [] => rfl
  | m :: ms => by
      simp only [mul3, map3, List.map_cons, List.zipWith_cons_cons]
      rw [zip_mul_zero2 m]
      exact congrArg _ (mul3_zero ms)

theorem abs3_zero (t : T3) : abs3 (map3 (fun _ => 0) t) = map3 (fun _ => 0) t := by
  simp [abs3, map3, List.map_map, Function.comp_def, abs_zero]

/-
The claim theorems.
-/

/-- C1, counterexample: on a concrete image and image gradient the base term
of the notebook differs from the claimed normalize-after-sum formula, because
the code normalizes before summing over channels. -/
theorem base_term_claim_counterexample : baseTerm G0 I0 ≠ claimBase G0 I0 := by
  norm_num [baseTerm, claimBase, G0, I0, mul3, abs3, map3, map2, sumAxis0, matAdd,
    normalize3, normalize2, normShift3, normShift2, normalizeDivisor3, normalizeDivisor2,
    flat2, flat3, npMin, npMax]

/-- C1, amended: for every input image and image gradient the base term of the
full-gradient accumulator equals the channel sum of normalize applied to the
elementwise absolute product, i.e. normalize is applied per tensor before the
channel sum, not after it. -/
theorem base_term_normalize_before_sum :
    ∀ image_gradient image : T3,
      baseTerm image_gradient image = specBaseAmended image_gradient image :=
  fun _ _ => rfl

/-- C2: whenever the accumulated map (base term plus layer contributions, in
the given order) is non-constant, the final output of the full-gradient
accumulator lies entirely in the closed unit interval, and the same holds for
any permutation of the layer list. -/
theorem fullGradient_output_in_unit_interval
    (zoomF : ℚ → Mat → Mat) (imgSz : ℚ) (image image_gradient : T3)
    (L1 L2 : List (T4 × Vec1 × Vec1)) (hperm : List.Perm L1 L2)
    (h1 : nonconst (flat2 (accMap zoomF imgSz (baseTerm image_gradient image) L1)))
    (h2 : nonconst (flat2 (accMap zoomF imgSz (baseTerm image_gradient image) L2))) :
    inUnit (flat2 (fullGrad zoomF imgSz image image_gradient L1)) ∧
    inUnit (flat2 (fullGrad zoomF imgSz image image_gradient L2)) := by
  constructor
  · unfold fullGrad
    rw [flat2_normalize2]
    exact (normalizeVals_core h1).1
  · unfold fullGrad
    rw [flat2_normalize2]
    exact (normalizeVals_core h2).1

/-- C2, witness: an instance with the empty layer list and a non-constant base
term. -/
theorem fullGradient_output_in_unit_interval_witness :
    inUnit (flat2 (fullGrad (fun _ m => m) 224 I0 G0 [])) ∧
    inUnit (flat2 (fullGrad (fun _ m => m) 224 I0 G0 [])) :=
  fullGradient_output_in_unit_interval (fun _ m => m) 224 I0 G0 [] [] (List.Perm.refl [])
    (by norm_num [accMap, baseTerm, G0, I0, mul3, abs3, map3, sumAxis0, matAdd,
        normalize3, normShift3, normalizeDivisor3, flat2, flat3, npMin, npMax, nonconst])
    (by norm_num [accMap, baseTerm, G0, I0, mul3, abs3, map3, sumAxis0, matAdd,
        normalize3, normShift3, normalizeDivisor3, flat2, flat3, npMin, npMax, nonconst])

/-- C3: when every weight, running_var and running_mean lookup succeeds and the
running variances are positive, the implicit-bias reconstructor returns one
tensor per layer, in the same length and order as the inputs, each equal to
- running_mean / sqrt(running_var) * weight elementwise. -/
theorem compute_implicit_biases_spec (view : Trial) (sq : ℚ → ℚ) (step : ℕ)
    (wns vns mns : List String) (ws vs ms : List Vec1)
    (hw : List.Forall₂ (fun n v => view.vec n step = Except.ok v) wns ws)
    (hv : List.Forall₂ (fun n v => view.vec n step = Except.ok v) vns vs)
    (hm : List.Forall₂ (fun n v => view.vec n step = Except.ok v) mns ms)
    (hlen1 : vns.length = wns.length) (hlen2 : mns.length = wns.length)
    (hpos : ∀ v ∈ vs, ∀ q ∈ v, 0 < q) :
    compute_implicit_biases view sq wns vns mns step =
      Except.ok (zipWith3 (implicitBiasVec sq) ws vs ms) ∧
    (zipWith3 (implicitBiasVec sq) ws vs ms).length = wns.length ∧
    ∀ i, i < wns.length →
      (zipWith3 (implicitBiasVec sq) ws vs ms).getD i [] =
        implicitBiasVec sq (ws.getD i []) (vs.getD i []) (ms.getD i []) := by
  have hlw := hw.length_eq
  have hlv := hv.length_eq
  have hlm := hm.length_eq
  refine ⟨compute_implicit_biases_ok view sq step wns vns mns ws vs ms hw hv hm, ?_, ?_⟩
  · rw [zipWith3_length]
    omega
  · intro i hi
    exact zipWith3_getD (implicitBiasVec sq) ws vs ms i (by omega) (by omega) (by omega)

/-- C3, witness: one batch-normalization layer served by a concrete store. -/
theorem compute_implicit_biases_spec_witness :
    compute_implicit_biases view3 id ["bn_w"] ["bn_v"] ["bn_m"] 0 =
      Except.ok (zipWith3 (implicitBiasVec id) [[2]] [[4]] [[6]]) ∧
    (zipWith3 (implicitBiasVec id) [[2]] [[4]] [[6]]).length = 1 := by
  have h := compute_implicit_biases_spec view3 id 0 ["bn_w"] ["bn_v"] ["bn_m"]
    [[2]] [[4]] [[6]]
    (List.Forall₂.cons (by rfl) List.Forall₂.nil)
    (List.Forall₂.cons (by rfl) List.Forall₂.nil)
    (List.Forall₂.cons (by rfl) List.Forall₂.nil)
    rfl rfl
    (by
      intro v hv q hq
      simp only [List.mem_singleton] at hv
      rw [hv] at hq
      simp only [List.mem_singleton] at hq
      rw [hq]
      norm_num)
  exact ⟨h.1, h.2.1⟩

/-- C4: the per-layer contribution of the accumulator is computed exactly as
the claim words it (bias_total, broadcast, normalized absolute product,
per-channel order-1 upsampling, accumulation), and accMap processes the
layer list in order, one layerStep per element. -/
theorem layer_contribution_matches_spec :
    (∀ (zoomF : ℚ → Mat → Mat) (imgSz : ℚ) (sal : Mat) (grad : T4) (b ib : Vec1),
        layerStep zoomF imgSz sal grad b ib = specLayerStep zoomF imgSz sal grad b ib) ∧
    (∀ (zoomF : ℚ → Mat → Mat) (imgSz : ℚ) (sal : Mat) (l : T4 × Vec1 × Vec1)
        (rest : List (T4 × Vec1 × Vec1)),
        accMap zoomF imgSz sal (l :: rest) =
          accMap zoomF imgSz (layerStep zoomF imgSz sal l.1 l.2.1 l.2.2) rest) :=
  ⟨fun _ _ _ _ _ _ => rfl, fun _ _ _ _ _ => rfl⟩

/-- C5: on every non-constant tensor, at each arity at which the notebook uses
normalize, the output values lie in the unit interval with minimum exactly 0
and maximum exactly 1. -/
theorem normalize_bounds_spec :
    (∀ t : Mat, nonconst (flat2 t) →
        inUnit (flat2 (normalize2 t)) ∧ npMin (flat2 (normalize2 t)) = 0 ∧
          npMax (flat2 (normalize2 t)) = 1) ∧
    (∀ t : T3, nonconst (flat3 t) →
        inUnit (flat3 (normalize3 t)) ∧ npMin (flat3 (normalize3 t)) = 0 ∧
          npMax (flat3 (normalize3 t)) = 1) ∧
    (∀ t : T4, nonconst (flat4 t) →
        inUnit (flat4 (normalize4 t)) ∧ npMin (flat4 (normalize4 t)) = 0 ∧
          npMax (flat4 (normalize4 t)) = 1) := by
  refine ⟨?_, ?_, ?_⟩
  · intro t h
    rw [flat2_normalize2]
    exact normalizeVals_core h
  · intro t h
    rw [flat3_normalize3]
    exact normalizeVals_core h
  · intro t h
    rw [flat4_normalize4]
    exact normalizeVals_core h

/-- C5, witness: concrete non-constant tensors at each arity. -/
theorem normalize_bounds_spec_witness :
    (inUnit (flat2 (normalize2 [[0, 1]])) ∧ npMin (flat2 (normalize2 [[0, 1]])) = 0 ∧
      npMax (flat2 (normalize2 [[0, 1]])) = 1) ∧
    (inUnit (flat3 (normalize3 [[[0, 1]]])) ∧ npMin (flat3 (normalize3 [[[0, 1]]])) = 0 ∧
      npMax (flat3 (normalize3 [[[0, 1]]])) = 1) ∧
    (inUnit (flat4 (normalize4 [[[[0, 1]]]])) ∧
      npMin (flat4 (normalize4 [[[[0, 1]]]])) = 0 ∧
      npMax (flat4 (normalize4 [[[[0, 1]]]])) = 1) :=
  ⟨normalize_bounds_spec.1 [[0, 1]] (by norm_num [nonconst, flat2, npMin, npMax]),
   normalize_bounds_spec.2.1 [[[0, 1]]]
     (by norm_num [nonconst, flat3, flat2, npMin, npMax]),
   normalize_bounds_spec.2.2 [[[[0, 1]]]]
     (by norm_num [nonconst, flat4, flat3, flat2, npMin, npMax])⟩

/-- C6: in the rendering loop over one list of steps, if no step raises an
exception other than tensor-unavailable, then the loop runs to completion
(no fatal error), and every step whose tensors raise tensor-unavailable is
logged as skipped, displays none of its batch items, and contributes no plot;
conversely, any other exception makes the loop terminate fatally. -/
theorem rendering_loop_error_handling (P : Params) (view : Trial) (steps : List ℕ) :
    ((∀ u ∈ steps, (processStep P view u).2 ≠ some TErr.otherError) →
        (processSteps P view steps).2 = none ∧
        ∀ s ∈ steps, (processStep P view s).2 = some TErr.tensorUnavailableForStep →
          Event.skippedStep s ∈ (processSteps P view steps).1 ∧
          (processStep P view s).1 = [] ∧
          hasPlotOfStep s (processSteps P view steps).1 = false) ∧
    ((∃ u ∈ steps, (processStep P view u).2 = some TErr.otherError) →
        (processSteps P view steps).2 = some TErr.otherError) := by
  constructor
  · intro hall
    refine ⟨processSteps_fatal_none P view steps hall, ?_⟩
    intro s hs hserr
    refine ⟨processSteps_skipped_mem P view steps s hs hall hserr,
      processStep_error_nil P view s _ hserr, ?_⟩
    cases hfl : hasPlotOfStep s (processSteps P view steps).1 with
    | false => rfl
    | true =>
        exfalso
        obtain ⟨u, hu, hup⟩ := processSteps_hasPlot P view steps s hfl
        have hsu : s = u := hasPlotOfStep_processStep P view u s hup
        rw [← hsu] at hup
        rw [processStep_error_nil P view s _ hserr] at hup
        simp [hasPlotOfStep] at hup
  · rintro ⟨u, hu, huerr⟩
    exact processSteps_fatal_some P view steps ⟨u, hu, huerr⟩

/-- C6, witness: a snapshot where step 1 is unavailable and step 2 renders,
and a snapshot whose failure is a different exception. -/
theorem rendering_loop_error_handling_witness :
    ((processSteps P0 view6 [1, 2]).2 = none ∧
      Event.skippedStep 1 ∈ (processSteps P0 view6 [1, 2]).1 ∧
      (processStep P0 view6 1).1 = [] ∧
      hasPlotOfStep 1 (processSteps P0 view6 [1, 2]).1 = false) ∧
    (processSteps P0 view6b [1]).2 = some TErr.otherError := by
  have h := rendering_loop_error_handling P0 view6 [1, 2]
  have h1 := h.1 (by decide)
  have h2 := h1.2 1 (by decide) (by decide)
  exact ⟨⟨h1.1, h2.1, h2.2.1, h2.2.2⟩,
    (rendering_loop_error_handling P0 view6b [1]).2 ⟨1, by decide, by decide⟩⟩

/-- C7: on the mock data source that reports steps [1,2] at the first poll and
[1,2,3] afterwards, with loaded_all_steps turning true only after step 3 has
been fetched, the polling loop terminates normally having plotted exactly the
steps 1, 2, 3, each exactly once. -/
theorem polling_loop_renders_all_steps_once :
    outcomePlotted (pollRun P0 env7 5) = some [1, 2, 3] ∧
    outcomeRendered (pollRun P0 env7 5) = some [1, 2, 3] := by
  decide

/-- C8: on a constant nonempty tensor the divisor that normalize divides by is
exactly 0, unconditionally (no guard exists); in particular the tensor fed to
normalize for the base term of a constant zero image gradient yields a zero
divisor. In exact rationals Lean totalizes division by zero, where numpy
produces nan. -/
theorem normalize_constant_divides_by_zero :
    (∀ (t : T3) (c : ℚ), flat3 t ≠ [] → (∀ x ∈ flat3 t, x = c) →
        normalizeDivisor3 t = 0) ∧
    (∀ image : T3, flat3 image ≠ [] →
        normalizeDivisor3 (abs3 (mul3 (map3 (fun _ => 0) image) image)) = 0) := by
  have hconst : ∀ (t : T3) (c : ℚ), flat3 t ≠ [] → (∀ x ∈ flat3 t, x = c) →
      normalizeDivisor3 t = 0 := by
    intro t c hne hc
    have hmin : npMin (flat3 t) = c := hc _ (npMin_mem hne)
    unfold normalizeDivisor3 normShift3
    rw [flat3_map3]
    have hall : ∀ y ∈ (flat3 t).map (fun x => x - npMin (flat3 t)), y = 0 := by
      intro y hy
      obtain ⟨z, hz, rfl⟩ := List.mem_map.mp hy
      rw [hc z hz, hmin, sub_self]
    have hne2 : (flat3 t).map (fun x => x - npMin (flat3 t)) ≠ [] := by
      intro hnil
      exact hne (List.map_eq_nil_iff.mp hnil)
    exact hall _ (npMax_mem hne2)
  refine ⟨hconst, ?_⟩
  intro image hne
  apply hconst _ 0
  · rw [mul3_zero, abs3_zero, flat3_map3]
    intro hnil
    exact hne (List.map_eq_nil_iff.mp hnil)
  · intro x hx
    rw [mul3_zero, abs3_zero, flat3_map3] at hx
    obtain ⟨z, hz, rfl⟩ := List.mem_map.mp hx
    rfl

/-- C8, witness: a concrete constant tensor and a concrete zero-gradient base
tensor, both with zero divisor. -/
theorem normalize_constant_divides_by_zero_witness :
    normalizeDivisor3 [[[3, 3]]] = 0 ∧
    normalizeDivisor3 (abs3 (mul3 (map3 (fun _ => 0) [[[7]]]) [[[7]]])) = 0 :=
  ⟨normalize_constant_divides_by_zero.1 [[[3, 3]]] 3 (by decide) (by decide),
   normalize_constant_divides_by_zero.2 [[[7]]] (by decide)⟩

/-- C9: the waiting loop compares a Python list to the int 0, which is always
False, so it exits after the very first poll for every response sequence,
including one whose first response is the empty step list; the claim that the
loop cannot exit while the retrieved steps are empty is violated by the code. -/
theorem waiting_loop_exits_after_first_poll :
    waitingLoop (fun _ => []) 2 = some (PyVal.list []) ∧
    ∀ responses : ℕ → List ℕ, waitingLoop responses 2 = some (PyVal.list (responses 0)) :=
  ⟨rfl, fun _ => rfl⟩

/-- C10: under a data source whose step list never shrinks, a step whose
rendering raised tensor-unavailable at iteration i is nevertheless part of
rendered_steps from iteration i+1 on, and is not in steps_to_render of any
later iteration, so it is never attempted again even after its tensors become
available. -/
theorem failed_step_never_retried (P : Params) (env : ℕ → Trial) (hm : stepsMono env)
    (i j : ℕ) (hij : i < j) (s : ℕ) (hs : s ∈ stepsToRenderAt env i)
    (hfail : (processStep P (env i) s).2 = some TErr.tensorUnavailableForStep) :
    s ∈ renderedAt env (i + 1) ∧ s ∉ stepsToRenderAt env j := by
  have hs2 : s ∈ sortedSymmDiff (env i).steps (renderedAt env i) := hs
  have hstep : s ∈ (env i).steps := by
    rcases mem_sortedSymmDiff.mp hs2 with ⟨h1, _⟩ | ⟨h1, h2⟩
    · exact h1
    · cases i with
      | zero => simp [renderedAt] at h1
      | succ k =>
          exact absurd
            (hm k (k + 1) (Nat.le_succ k) s (renderedAt_sub_steps env hm k s h1)) h2
  have hr1 : s ∈ renderedAt env (i + 1) := by
    rw [renderedAt]
    exact List.mem_append.mpr (Or.inr hs2)
  refine ⟨hr1, ?_⟩
  intro hcon
  have hcon2 : s ∈ sortedSymmDiff (env j).steps (renderedAt env j) := hcon
  have hsj : s ∈ (env j).steps := hm i j (le_of_lt hij) s hstep
  have hrj : s ∈ renderedAt env j := renderedAt_mono env (i + 1) j hij s hr1
  rcases mem_sortedSymmDiff.mp hcon2 with ⟨_, h2⟩ | ⟨_, h2⟩
  · exact h2 hrj
  · exact h2 hsj

/-- C10, witness: step 5 fails with tensor-unavailable at iteration 0 and is
available from iteration 1 on, yet is rendered-marked and never retried. -/
theorem failed_step_never_retried_witness :
    5 ∈ renderedAt env10 1 ∧ 5 ∉ stepsToRenderAt env10 1 :=
  failed_step_never_retried P0 env10 (fun i j h s hs => hs) 0 1 (by decide) 5
    (by decide) (by decide)
